import Mathlib

/-!
Shallow embedding of the text-fitting and word-wrap engine of the
meme-generator repository, together with theorems settling the frozen
claims about it.

The repository contains three near-identical variants of the engine:

* `src/App.tsx` (namespace `AppTsx`): wraps at one fixed font size and
  falls back to forced character-level splitting for over-wide words
  (`pushLineWithWordSplit`).
* the first variant inside `src/unnamed/part_000` (namespace `PartV1`):
  `calculateLines` reports a size infeasible (returns `null`) whenever a
  single word is too wide, and a descending `while (currentFontSize > 8)`
  loop retries smaller sizes; if the loop exhausts, nothing is painted.
* the second variant inside `src/unnamed/part_000` (namespace `PartV2`):
  `findBestFit` with a `n > 0` guard, restarted by
  `while (!findBestFit()) {}` after each forced shrink.

Numbers are modelled by `ℚ` (exact arithmetic standing for the
JavaScript floats), and the canvas `measureText` capability by an
explicit parameter `m : Measure`, since it is external to the engine.
-/

/-- Pixel-width measurement capability: `m text fontSize` is the measured
width of `text` at `fontSize` (the contract of `context.measureText` with
the font pinned to the given size). -/
abbrev Measure := String → ℚ → ℚ

/-- Model of JavaScript `String.prototype.trim` on the character list:
drop whitespace from the front, then from the back. -/
def trimChars (l : List Char) : List Char :=
  ((l.dropWhile Char.isWhitespace).reverse.dropWhile Char.isWhitespace).reverse

/-- Model of JavaScript `rawText.trim()`. -/
def jsTrim (s : String) : String :=
  String.mk (trimChars s.data)

/-- Model of JavaScript `text.toUpperCase()` (restricted, like Lean's own
`Char.toUpper`, to the basic-latin letters). -/
def jsToUpper (s : String) : String :=
  String.mk (s.data.map Char.toUpper)

/-- The normalization every variant applies first:
`rawText.trim().toUpperCase()`. -/
def normalizeText (s : String) : String :=
  jsToUpper (jsTrim s)

/-- Accumulator-based whitespace tokenizer: `cur` holds the (reversed)
characters of the token currently being read. -/
def wordsAux : List Char → List Char → List (List Char)
  | [], cur => if cur = [] then [] else [cur.reverse]
  | c :: cs, cur =>
    if c.isWhitespace then
      if cur = [] then wordsAux cs [] else cur.reverse :: wordsAux cs []
    else
      wordsAux cs (c :: cur)

/-- Maximal whitespace-free runs of a character list. -/
def wordChars (l : List Char) : List (List Char) :=
  wordsAux l []

/-- Model of JavaScript `text.split(/\s+/)` on a trimmed string: the list
of whitespace-separated tokens. -/
def jsWords (s : String) : List String :=
  (wordChars s.data).map String.mk

/-- Model of JavaScript `text.split(/\s+/)` including the corner case of
the empty string, for which JavaScript returns a one-element list holding
the empty string (all call sites split an already-trimmed string). -/
def jsSplitWS (s : String) : List String :=
  if s = "" then [""] else jsWords s

/-- Joining a list of lines with single spaces (used to state that the
wrap loses no words). -/
def joinSp : List String → String
  | [] => ""
  | [s] => s
  | s :: rest => s ++ " " ++ joinSp rest

/-- Iteration budget of a descending step-1 font-size scan that stops
once the size is no longer strictly above `minSize`: the number of steps
needed to bring `f` down to `minSize` or below. -/
def fitFuel (minSize f : ℚ) : ℕ :=
  ⌈f - minSize⌉.toNat

namespace AppTsx

/-- Character-level forced splitting of one over-wide word
(`src/App.tsx` lines 128-141): greedily append characters to `charLine`,
pushing it as a finished line whenever the next character would overflow.
Returns the pushed lines and the remaining `charLine`. `mw` is the
measurement pinned at the current font size. -/
def pushSplitGo (mw : String → ℚ) (targetMaxWidth : ℚ) :
    List Char → List String → String → List String × String
  | [], lines, charLine => (lines, charLine)
  | c :: cs, lines, charLine =>
    let testCharLine := charLine.push c
    if mw testCharLine > targetMaxWidth then
      pushSplitGo mw targetMaxWidth cs
        (if charLine = "" then lines else lines ++ [charLine])
        (String.singleton c)
    else
      pushSplitGo mw targetMaxWidth cs lines testCharLine

/-- Entry point of the forced character splitting: start with an empty
`charLine` over the characters of the word (`wordToSplit.split('')`). -/
def pushLineWithWordSplit (mw : String → ℚ) (targetMaxWidth : ℚ)
    (wordToSplit : String) : List String × String :=
  pushSplitGo mw targetMaxWidth wordToSplit.data [] ""

/-- Main word loop of `src/App.tsx` `wrapText` (lines 143-165), with the
trailing `if (currentLine) lines.push(currentLine)` folded into the base
case. The boolean records whether forced character splitting was
triggered anywhere. -/
def wrapGo (mw : String → ℚ) (targetMaxWidth : ℚ) :
    List String → List String → String → List String × Bool
  | [], lines, currentLine =>
    (if currentLine = "" then lines else lines ++ [currentLine], false)
  | word :: ws, lines, currentLine =>
    let testLine := if currentLine = "" then word else currentLine ++ " " ++ word
    if mw testLine > targetMaxWidth then
      if currentLine ≠ "" then
        if mw word > targetMaxWidth then
          let ps := pushLineWithWordSplit mw targetMaxWidth word
          ((wrapGo mw targetMaxWidth ws ((lines ++ [currentLine]) ++ ps.1) ps.2).1, true)
        else
          wrapGo mw targetMaxWidth ws (lines ++ [currentLine]) word
      else
        let ps := pushLineWithWordSplit mw targetMaxWidth word
        ((wrapGo mw targetMaxWidth ws (lines ++ ps.1) ps.2).1, true)
    else
      wrapGo mw targetMaxWidth ws lines testLine

/-- Result of one `wrapText` call in `src/App.tsx`: the computed lines
and the layout quantities used to paint them. -/
structure Paint where
  lines : List String
  lineHeight : ℚ
  totalHeight : ℚ
  startY : ℚ
  centerX : ℚ
  deriving Repr

/-- Model of `src/App.tsx` `wrapText` (lines 104-187): normalizeText, return
without painting on empty text, wrap at the single given font size
(padding 15 percent per side, then a 0.97 safety factor), and lay lines
out from `startY = centerY - totalHeight/2 + lineHeight/2` (the baseline
is `middle`). `boxHeight` is used by the source only for the clip
rectangle. -/
def wrapText (m : Measure) (rawText : String)
    (centerX centerY boxWidth boxHeight fSize : ℚ) : Option Paint :=
  let text := normalizeText rawText
  if text = "" then none else
  let words := jsWords text
  let paddingX := boxWidth * (15 / 100)
  let targetMaxWidth := (boxWidth - paddingX * 2) * (97 / 100)
  let lineHeight := fSize * (115 / 100)
  let lines := (wrapGo (fun s => m s fSize) targetMaxWidth words [] "").1
  let totalHeight := (lines.length : ℚ) * lineHeight
  some { lines := lines, lineHeight := lineHeight, totalHeight := totalHeight,
         startY := centerY - totalHeight / 2 + lineHeight / 2,
         centerX := centerX }

/-- Painted positions (`context.fillText(line, centerX, lineY)` with
`lineY = startY + index * lineHeight`, lines 181-184). -/
def linePositions (p : Paint) : List (ℚ × ℚ) :=
  (List.range p.lines.length).map
    (fun (i : ℕ) => (p.centerX, p.startY + (i : ℚ) * p.lineHeight))

/-- Base font size of `src/App.tsx` (line 97):
`Math.floor(canvas.height * 0.065)`. -/
def baseFontSize (canvasHeight : ℚ) : ℤ :=
  ⌊canvasHeight * (65 / 1000)⌋

/-- Font size actually used (line 98): `baseFontSize * fontSizeScale`. -/
def currentFontSize (canvasHeight fontSizeScale : ℚ) : ℚ :=
  (baseFontSize canvasHeight : ℚ) * fontSizeScale

end AppTsx

namespace PartV1

/-- Word loop of `calculateLines` in the first `part_000` variant
(lines 110-140): `none` models the `return null` taken when a single
word is too wide for `maxWidth`; the trailing
`if (currentLine) currentLines.push(currentLine)` is the base case. -/
def calcGo (mw : String → ℚ) (maxWidth : ℚ) :
    List String → List String → String → Option (List String)
  | [], currentLines, currentLine =>
    some (if currentLine = "" then currentLines else currentLines ++ [currentLine])
  | w :: ws, currentLines, currentLine =>
    let testLine := currentLine ++ (if currentLine ≠ "" then " " else "") ++ w
    if mw testLine > maxWidth then
      if mw w > maxWidth then none
      else if currentLine ≠ "" then
        calcGo mw maxWidth ws (currentLines ++ [currentLine]) w
      else
        calcGo mw maxWidth ws (currentLines ++ [w]) currentLine
    else
      calcGo mw maxWidth ws currentLines testLine

/-- Return record of `calculateLines`:
`{ lines, totalHeight: lines.length * lHeight, lineHeight: lHeight }`. -/
structure CalcResult where
  lines : List String
  totalHeight : ℚ
  lineHeight : ℚ
  deriving Repr, DecidableEq

/-- Model of `calculateLines(fSize)` (lines 110-140): wrap the words at
`fSize` with line height `fSize * 1.15`, or `none` when the size is
fundamentally too big. -/
def calculateLines (m : Measure) (words : List String) (maxWidth : ℚ)
    (fSize : ℚ) : Option CalcResult :=
  let lHeight := fSize * (115 / 100)
  (calcGo (fun s => m s fSize) maxWidth words [] "").map
    (fun ls => { lines := ls, totalHeight := (ls.length : ℚ) * lHeight,
                 lineHeight := lHeight })

/-- Descending size scan of the first `part_000` variant (lines 143-152):
`while (currentFontSize > 8) { ... currentFontSize -= 1 }`, stopping at
the first size whose block also fits `maxHeight`. The `ℕ` argument is an
explicit iteration budget; `fitGo_fuel` below shows that
`fitFuel 8 f` iterations make it equal to the unbounded loop, so the
budget is not load-bearing. `none` models the loop exhausting with
`lines.length === 0`. -/
def fitGo (m : Measure) (words : List String) (maxWidth maxHeight : ℚ) :
    ℕ → ℚ → Option (ℚ × CalcResult)
  | 0, _ => none
  | fuel + 1, f =>
    if 8 < f then
      match calculateLines m words maxWidth f with
      | some r =>
        if r.totalHeight ≤ maxHeight then some (f, r)
        else fitGo m words maxWidth maxHeight fuel (f - 1)
      | none => fitGo m words maxWidth maxHeight fuel (f - 1)
    else none

/-- The full shrink loop started at `initialFontSize`, returning the
chosen font size together with the `calculateLines` result. -/
def findFontFit (m : Measure) (words : List String) (maxWidth maxHeight : ℚ)
    (initialFontSize : ℚ) : Option (ℚ × CalcResult) :=
  fitGo m words maxWidth maxHeight (fitFuel 8 initialFontSize) initialFontSize

/-- A font size is feasible when `calculateLines` accepts it (no word
wider than `maxWidth`) and the resulting block also fits `maxHeight`:
exactly the success condition of the shrink loop. -/
def sizeFits (m : Measure) (words : List String) (maxWidth maxHeight : ℚ)
    (f : ℚ) : Prop :=
  ∃ r, calculateLines m words maxWidth f = some r ∧ r.totalHeight ≤ maxHeight

/-- Everything one `wrapText` call of the first `part_000` variant paints
with: the chosen FitResult fields plus the layout anchors. -/
structure Paint where
  fontSize : ℚ
  lines : List String
  lineHeight : ℚ
  blockHeight : ℚ
  startY : ℚ
  centerX : ℚ
  deriving Repr

/-- Model of `wrapText` in the first `part_000` variant (lines 84-174):
normalize, bail out on empty text, pad 15 percent per side, run the
shrink loop, and return `none` (nothing painted) when it exhausts
(`if (lines.length === 0) return`). The baseline is `top`, so
`startY = centerY - totalBlockHeight/2`. -/
def wrapText (m : Measure) (rawText : String)
    (centerX centerY boxWidth boxHeight initialFontSize : ℚ) : Option Paint :=
  let text := normalizeText rawText
  if text = "" then none else
  let words := jsWords text
  let hPadding := boxWidth * (15 / 100)
  let vPadding := boxHeight * (15 / 100)
  let maxWidth := boxWidth - hPadding * 2
  let maxHeight := boxHeight - vPadding * 2
  match findFontFit m words maxWidth maxHeight initialFontSize with
  | none => none
  | some (f, r) =>
    some { fontSize := f, lines := r.lines, lineHeight := r.lineHeight,
           blockHeight := r.totalHeight,
           startY := centerY - r.totalHeight / 2, centerX := centerX }

/-- Painted positions of the first `part_000` variant (lines 168-171). -/
def linePositions (p : Paint) : List (ℚ × ℚ) :=
  (List.range p.lines.length).map
    (fun (i : ℕ) => (p.centerX, p.startY + (i : ℚ) * p.lineHeight))

/-- Base font size (line 82): `Math.floor(canvas.height * 0.055)`. -/
def baseFontSize (canvasHeight : ℚ) : ℤ :=
  ⌊canvasHeight * (55 / 1000)⌋

/-- Line 182: `scaledFontSize = baseFontSize * fontSizeScale`. -/
def scaledFontSize (canvasHeight fontSizeScale : ℚ) : ℚ :=
  (baseFontSize canvasHeight : ℚ) * fontSizeScale

end PartV1

namespace PartV2

/-- Inner word loop of `findBestFit` in the second `part_000` variant
(lines 453-470), over the words after the first (the overflow branch is
guarded by `n > 0`, so the first word is handled separately in
`pass`). `Sum.inl` models the `return false` abort (with the lines
pushed so far), `Sum.inr` the completed pass including the final
`lines.push(currentLine.trim())`. -/
def passGo (mw : String → ℚ) (maxWidth : ℚ) :
    List String → String → List String → List String ⊕ List String
  | [], currentLine, lines => Sum.inr (lines ++ [jsTrim currentLine])
  | w :: ws, currentLine, lines =>
    let testLine := currentLine ++ w ++ " "
    if mw (jsTrim testLine) > maxWidth then
      let lines2 := lines ++ [jsTrim currentLine]
      if mw w > maxWidth then Sum.inl lines2
      else passGo mw maxWidth ws (w ++ " ") lines2
    else
      passGo mw maxWidth ws testLine lines

/-- One pass of the word loop at a fixed size. At `n = 0` the guard
`metrics.width > maxWidth && n > 0` is false, so the first word is
accepted into `currentLine` with no width check. -/
def pass (mw : String → ℚ) (maxWidth : ℚ) (words : List String) :
    List String ⊕ List String :=
  match words with
  | [] => Sum.inr [jsTrim ""]
  | w :: ws => passGo mw maxWidth ws (w ++ " ") []

/-- The mutable state `findBestFit` reads and writes across attempts:
`lines`, `lineHeight`, `totalBlockHeight` (initialized to `[]`, 0, 0).
On an aborted pass `lines` and `lineHeight` are updated but
`totalBlockHeight` keeps its stale value, exactly as in the source. -/
structure StateC where
  lines : List String
  lineHeight : ℚ
  totalBlockHeight : ℚ
  deriving Repr

/-- Combined effect of `while (!findBestFit()) {}` (lines 446-481): each
iteration of the inner `while (currentFontSize > 6)` either succeeds,
moves to `f - 1`, or aborts (`return false`, also moving to `f - 1`,
re-entered by the outer retry loop). When the size floor is passed the
stale state is returned as-is. The `ℕ` budget is shown sufficient at
`fitFuel 6 f` by `bestFitGo_fuel` below. -/
def bestFitGo (m : Measure) (words : List String) (maxWidth maxHeight : ℚ) :
    ℕ → ℚ → StateC → StateC
  | 0, _, st => st
  | fuel + 1, f, st =>
    if 6 < f then
      let lineHeight := f * (115 / 100)
      match pass (fun s => m s f) maxWidth words with
      | Sum.inl abortedLines =>
        bestFitGo m words maxWidth maxHeight fuel (f - 1)
          { lines := abortedLines, lineHeight := lineHeight,
            totalBlockHeight := st.totalBlockHeight }
      | Sum.inr doneLines =>
        let totalBlockHeight := (doneLines.length : ℚ) * lineHeight
        if totalBlockHeight ≤ maxHeight then
          { lines := doneLines, lineHeight := lineHeight,
            totalBlockHeight := totalBlockHeight }
        else
          bestFitGo m words maxWidth maxHeight fuel (f - 1)
            { lines := doneLines, lineHeight := lineHeight,
              totalBlockHeight := totalBlockHeight }
    else st

/-- The state left behind by `while (!findBestFit()) {}` starting at
`initialFontSize` from the initial `[] / 0 / 0` state. -/
def findBestFit (m : Measure) (words : List String) (maxWidth maxHeight : ℚ)
    (initialFontSize : ℚ) : StateC :=
  bestFitGo m words maxWidth maxHeight (fitFuel 6 initialFontSize)
    initialFontSize { lines := [], lineHeight := 0, totalBlockHeight := 0 }

/-- What one `wrapText` call of the second `part_000` variant paints
with. -/
structure Paint where
  lines : List String
  lineHeight : ℚ
  totalBlockHeight : ℚ
  startY : ℚ
  centerX : ℚ
  deriving Repr

/-- Model of `wrapText` in the second `part_000` variant (lines 420-503):
normalize, split, bail out when `words.length === 0 || text === ''`, pad
12 percent per side, run the retry loop, and paint from
`startY = centerY - totalBlockHeight/2` with baseline `top`. -/
def wrapText (m : Measure) (rawText : String)
    (centerX centerY boxWidth boxHeight initialFontSize : ℚ) : Option Paint :=
  let text := normalizeText rawText
  let words := jsSplitWS text
  if words.length = 0 ∨ text = "" then none else
  let hPadding := boxWidth * (12 / 100)
  let vPadding := boxHeight * (12 / 100)
  let maxWidth := boxWidth - hPadding * 2
  let maxHeight := boxHeight - vPadding * 2
  let st := findBestFit m words maxWidth maxHeight initialFontSize
  some { lines := st.lines, lineHeight := st.lineHeight,
         totalBlockHeight := st.totalBlockHeight,
         startY := centerY - st.totalBlockHeight / 2, centerX := centerX }

end PartV2

/-- Modelled from the spec: the greedy line-breaking rule of section 4.2,
stated verbatim from the spec's words — keep `currentLine`; for each word
form `candidate = currentLine + " " + word` (or just `word` when
`currentLine` is empty); accept the candidate when its width is at most
`W`, otherwise close `currentLine` as a finished line and start a new
line with the word alone. Used only to compare the code's breakers
against the spec (claim C5). -/
def greedySpecGo (mw : String → ℚ) (W : ℚ) :
    List String → List String → String → List String
  | [], acc, currentLine =>
    if currentLine = "" then acc else acc ++ [currentLine]
  | word :: ws, acc, currentLine =>
    let candidate := if currentLine = "" then word else currentLine ++ " " ++ word
    if mw candidate ≤ W then greedySpecGo mw W ws acc candidate
    else greedySpecGo mw W ws (acc ++ [currentLine]) word

/-- Modelled from the spec: entry point of the greedy rule. -/
def greedySpec (mw : String → ℚ) (W : ℚ) (words : List String) : List String :=
  greedySpecGo mw W words [] ""

/-- Example measurement used for concrete runs: width proportional to
both the font size and the number of characters. It is monotone in the
font size and in string extension, like a real `measureText`. -/
def mexLen : Measure := fun s f => f * (s.length : ℚ)

/-! Section: Character-level facts about the normalization -/

theorem charToNat_ofNat_of_lt {n : ℕ} (h : n < 55296) : (Char.ofNat n).toNat = n := by
  have hv : n.isValidChar := Or.inl h
  rw [Char.ofNat, dif_pos hv]
  simp [Char.ofNatAux, Char.toNat, UInt32.toNat]

theorem charToUpper_of_range {c : Char} (h : 97 ≤ c.toNat ∧ c.toNat ≤ 122) :
    c.toUpper.toNat = c.toNat - 32 := by
  rw [Char.toUpper]
  rw [if_pos ⟨h.1, h.2⟩]
  exact charToNat_ofNat_of_lt (by omega)

theorem charToUpper_of_not {c : Char} (h : ¬(97 ≤ c.toNat ∧ c.toNat ≤ 122)) :
    c.toUpper = c := by
  rw [Char.toUpper, if_neg]
  intro hc
  exact h ⟨hc.1, hc.2⟩

/-- Uppercasing is idempotent, so the normalized text is a fixed point of
`toUpperCase`. -/
theorem charToUpper_idem (c : Char) : c.toUpper.toUpper = c.toUpper := by
  by_cases h : 97 ≤ c.toNat ∧ c.toNat ≤ 122
  · have h2 := charToUpper_of_range h
    apply charToUpper_of_not
    rw [h2]
    omega
  · rw [charToUpper_of_not h, charToUpper_of_not h]

theorem charWs_false_of_toNat {c : Char} (h1 : 32 < c.toNat) : c.isWhitespace = false := by
  have hs : c ≠ ' ' := fun e => absurd h1 (by rw [e]; decide)
  have ht : c ≠ '\t' := fun e => absurd h1 (by rw [e]; decide)
  have hr : c ≠ '\r' := fun e => absurd h1 (by rw [e]; decide)
  have hn : c ≠ '\n' := fun e => absurd h1 (by rw [e]; decide)
  simp [Char.isWhitespace, hs, ht, hr, hn]

/-- Uppercasing never turns a character into whitespace or back. -/
theorem charWs_toUpper (c : Char) : c.toUpper.isWhitespace = c.isWhitespace := by
  by_cases h : 97 ≤ c.toNat ∧ c.toNat ≤ 122
  · have h2 := charToUpper_of_range h
    rw [charWs_false_of_toNat (by omega), charWs_false_of_toNat (c := c) (by omega)]
  · rw [charToUpper_of_not h]

/-! Section: Tokenizer facts -/

theorem wordsAux_ne_nil_of_cur (l : List Char) (cur : List Char) (h : cur ≠ []) :
    wordsAux l cur ≠ [] := by
  induction l generalizing cur with
  | nil => simp [wordsAux, h]
  | cons c cs ih =>
    by_cases hw : c.isWhitespace
    · simp [wordsAux, hw, h]
    · simp only [wordsAux, hw]
      simp only [Bool.false_eq_true, if_false]
      exact ih _ (by simp)

theorem wordsAux_ne_nil (l : List Char) (h : ∃ c ∈ l, c.isWhitespace = false) :
    wordsAux l [] ≠ [] := by
  induction l with
  | nil => simp at h
  | cons c cs ih =>
    by_cases hw : c.isWhitespace
    · obtain ⟨d, hd, hdf⟩ := h
      rcases List.mem_cons.mp hd with rfl | hd2
      · rw [hw] at hdf; cases hdf
      · simpa [wordsAux, hw] using ih ⟨d, hd2, hdf⟩
    · simp only [wordsAux, hw, Bool.false_eq_true, if_false]
      exact wordsAux_ne_nil_of_cur cs [c] (by simp)

theorem mem_wordsAux_ne_nil {l cur : List Char} {w : List Char}
    (hw : w ∈ wordsAux l cur) : w ≠ [] := by
  induction l generalizing cur with
  | nil =>
    by_cases h : cur = [] <;> simp [wordsAux, h] at hw
    subst hw
    simp [h]
  | cons c cs ih =>
    by_cases hws : c.isWhitespace
    · by_cases h : cur = []
      · rw [wordsAux, if_pos hws, if_pos h] at hw
        exact ih hw
      · rw [wordsAux, if_pos hws, if_neg h] at hw
        rcases List.mem_cons.mp hw with rfl | hw2
        · simp [h]
        · exact ih hw2
    · rw [wordsAux, if_neg hws] at hw
      exact ih hw

theorem mem_wordsAux_subset {l cur : List Char} {w : List Char}
    (hw : w ∈ wordsAux l cur) : ∀ c ∈ w, c ∈ cur ∨ c ∈ l := by
  induction l generalizing cur with
  | nil =>
    by_cases h : cur = [] <;> simp [wordsAux, h] at hw
    subst hw
    intro c hc
    exact Or.inl (List.mem_reverse.mp hc)
  | cons a as ih =>
    by_cases hws : a.isWhitespace
    · by_cases h : cur = []
      · rw [wordsAux, if_pos hws, if_pos h] at hw
        intro c hc
        rcases ih hw c hc with hcc | hcl
        · simp at hcc
        · exact Or.inr (List.mem_cons_of_mem _ hcl)
      · rw [wordsAux, if_pos hws, if_neg h] at hw
        intro c hc
        rcases List.mem_cons.mp hw with rfl | hw2
        · exact Or.inl (List.mem_reverse.mp hc)
        · rcases ih hw2 c hc with hcc | hcl
          · simp at hcc
          · exact Or.inr (List.mem_cons_of_mem _ hcl)
    · rw [wordsAux, if_neg hws] at hw
      intro c hc
      rcases ih hw c hc with hcc | hcl
      · rcases List.mem_cons.mp hcc with rfl | hcur
        · exact Or.inr (List.mem_cons_self _ _)
        · exact Or.inl hcur
      · exact Or.inr (List.mem_cons_of_mem _ hcl)

theorem exists_mem_dropWhile {p : Char → Bool} {l : List Char}
    (h : ∃ c ∈ l, p c = false) : ∃ c ∈ l.dropWhile p, p c = false := by
  induction l with
  | nil => simp at h
  | cons a as ih =>
    obtain ⟨d, hd, hdf⟩ := h
    by_cases hp : p a
    · rcases List.mem_cons.mp hd with rfl | hd2
      · rw [hp] at hdf; cases hdf
      · simpa [List.dropWhile_cons, hp] using ih ⟨d, hd2, hdf⟩
    · exact ⟨a, by simp [List.dropWhile_cons, hp], by simpa using hp⟩

theorem trimChars_eq_nil {l : List Char} (h : ∀ c ∈ l, c.isWhitespace = true) :
    trimChars l = [] := by
  unfold trimChars
  have h1 : l.dropWhile Char.isWhitespace = [] :=
    List.dropWhile_eq_nil_iff.mpr (by intro x hx; simp [h x hx])
  rw [h1]
  simp

theorem trimChars_has_non_ws {l : List Char} (h : ∃ c ∈ l, c.isWhitespace = false) :
    ∃ c ∈ trimChars l, c.isWhitespace = false := by
  unfold trimChars
  have h1 := exists_mem_dropWhile (p := Char.isWhitespace) h
  have h2 : ∃ c ∈ (l.dropWhile Char.isWhitespace).reverse, c.isWhitespace = false := by
    obtain ⟨c, hc, hcf⟩ := h1
    exact ⟨c, List.mem_reverse.mpr hc, hcf⟩
  have h3 := exists_mem_dropWhile (p := Char.isWhitespace) h2
  obtain ⟨c, hc, hcf⟩ := h3
  exact ⟨c, List.mem_reverse.mpr hc, hcf⟩

/-! Section: Normalization facts at the string level -/

theorem mem_jsWords_ne_empty {s : String} {w : String} (h : w ∈ jsWords s) : w ≠ "" := by
  unfold jsWords wordChars at h
  obtain ⟨wc, hwc, rfl⟩ := List.mem_map.mp h
  have := mem_wordsAux_ne_nil hwc
  intro he
  exact this (congrArg String.data he)

theorem mem_jsWords_data_subset {s : String} {w : String} (h : w ∈ jsWords s) :
    ∀ c ∈ w.data, c ∈ s.data := by
  unfold jsWords wordChars at h
  obtain ⟨wc, hwc, rfl⟩ := List.mem_map.mp h
  intro c hc
  rcases mem_wordsAux_subset hwc c hc with h0 | h1
  · simp at h0
  · exact h1

theorem normalizeText_data (s : String) :
    (normalizeText s).data = (trimChars s.data).map Char.toUpper := rfl

/-- Every character of the normalized text is a fixed point of
`Char.toUpper`. -/
theorem normalizeText_upfix (s : String) :
    ∀ c ∈ (normalizeText s).data, c.toUpper = c := by
  intro c hc
  rw [normalizeText_data] at hc
  obtain ⟨x, _, rfl⟩ := List.mem_map.mp hc
  exact charToUpper_idem x

theorem normalizeText_eq_empty {s : String} (h : ∀ c ∈ s.data, c.isWhitespace = true) :
    normalizeText s = "" := by
  apply String.ext
  rw [normalizeText_data, trimChars_eq_nil h]
  rfl

theorem jsWords_normalizeText_ne_nil {s : String}
    (h : ∃ c ∈ s.data, c.isWhitespace = false) : jsWords (normalizeText s) ≠ [] := by
  unfold jsWords wordChars
  have h2 : ∃ c ∈ (normalizeText s).data, c.isWhitespace = false := by
    obtain ⟨c, hc, hcf⟩ := trimChars_has_non_ws h
    refine ⟨c.toUpper, ?_, by rw [charWs_toUpper]; exact hcf⟩
    rw [normalizeText_data]
    exact List.mem_map_of_mem _ hc
  have h3 := wordsAux_ne_nil _ h2
  simpa using h3

theorem normalizeText_ne_empty {s : String}
    (h : ∃ c ∈ s.data, c.isWhitespace = false) : normalizeText s ≠ "" := by
  intro he
  have h2 := trimChars_has_non_ws h
  obtain ⟨c, hc, _⟩ := h2
  have : (normalizeText s).data = [] := congrArg String.data he
  rw [normalizeText_data] at this
  rw [List.map_eq_nil_iff] at this
  rw [this] at hc
  exact absurd hc (List.not_mem_nil c)

/-! Section: String and join helpers; word preservation in the first part_000 variant -/

theorem strEmpty_data : ("" : String).data = [] := rfl

theorem str_ne_empty_iff {s : String} : s ≠ "" ↔ s.data ≠ [] := by
  constructor
  · intro h hd
    exact h (String.ext hd)
  · intro h hs
    exact h (congrArg String.data hs)

theorem empty_empty_append (w : String) : ("" ++ "") ++ w = w := by
  apply String.ext
  simp [strEmpty_data]

theorem append_space_ne_empty (a b : String) : (a ++ " ") ++ b ≠ "" := by
  rw [str_ne_empty_iff]
  simp

theorem singleton_ne_empty (c : Char) : String.singleton c ≠ "" := by
  rw [str_ne_empty_iff]
  simp [String.singleton]

theorem push_ne_empty (s : String) (c : Char) : s.push c ≠ "" := by
  rw [str_ne_empty_iff]
  simp

theorem joinSp_cons {x : String} {xs : List String} (h : xs ≠ []) :
    joinSp (x :: xs) = x ++ " " ++ joinSp xs := by
  cases xs with
  | nil => exact absurd rfl h
  | cons y ys => rfl

theorem joinSp_merge (xs : List String) (a b : String) (ys : List String) :
    joinSp (xs ++ (a ++ " " ++ b) :: ys) = joinSp (xs ++ a :: b :: ys) := by
  induction xs with
  | nil =>
    cases ys with
    | nil => rfl
    | cons y ys2 => simp [joinSp, String.append_assoc]
  | cons x xs2 ih =>
    rw [List.cons_append, List.cons_append,
      joinSp_cons (by simp), joinSp_cons (by simp), ih]

namespace PartV1

theorem calcGo_join {mw : String → ℚ} {W : ℚ} {ws : List String} :
    ∀ {acc : List String} {cur : String} {ls : List String},
      (∀ x ∈ ws, x ≠ "") →
      calcGo mw W ws acc cur = some ls →
      joinSp ls = joinSp (acc ++ (if cur = "" then [] else [cur]) ++ ws) := by
  induction ws with
  | nil =>
    intro acc cur ls _ h
    rw [calcGo] at h
    by_cases hc : cur = "" <;> simp [hc] at h ⊢ <;> rw [← h]
  | cons w ws2 ih =>
    intro acc cur ls hne h
    have hwne : w ≠ "" := hne w (List.mem_cons_self _ _)
    have hne2 : ∀ x ∈ ws2, x ≠ "" := fun x hx => hne x (List.mem_cons_of_mem _ hx)
    rw [calcGo] at h
    by_cases hc : cur = ""
    · subst hc
      have e1 : (("" : String) ++ if ("" : String) ≠ "" then " " else "") ++ w = w := by
        apply String.ext
        simp [strEmpty_data]
      rw [e1] at h
      by_cases hb : mw w > W
      · rw [if_pos hb, if_pos hb] at h
        cases h
      · rw [if_neg hb] at h
        have := ih hne2 h
        rw [this]
        simp [hwne]
    · have e2 : (cur ++ if cur ≠ "" then " " else "") ++ w = (cur ++ " ") ++ w := by
        rw [if_pos hc]
      rw [e2] at h
      by_cases hb : mw ((cur ++ " ") ++ w) > W
      · rw [if_pos hb] at h
        by_cases hw : mw w > W
        · rw [if_pos hw] at h
          cases h
        · rw [if_neg hw, if_pos hc] at h
          have := ih hne2 h
          rw [this]
          simp [hc, hwne]
      · rw [if_neg hb] at h
        have := ih hne2 h
        rw [this, if_neg (append_space_ne_empty cur w), if_neg hc]
        simp only [List.append_assoc, List.singleton_append]
        rw [joinSp_merge]

end PartV1

/-! Section: The descending font-size scan -/

theorem fitFuel_zero {minS f : ℚ} (h : ¬ minS < f) : fitFuel minS f = 0 := by
  unfold fitFuel
  rw [Int.toNat_eq_zero, Int.ceil_le]
  push_cast
  linarith [not_lt.mp h]

theorem fitFuel_succ {minS f : ℚ} (h : minS < f) :
    fitFuel minS f = fitFuel minS (f - 1) + 1 := by
  unfold fitFuel
  have h1 : 0 < ⌈f - minS⌉ := Int.ceil_pos.mpr (by linarith)
  have h2 : f - 1 - minS = (f - minS) - 1 := by ring
  rw [h2, Int.ceil_sub_one]
  omega

theorem fitFuel_le_bound {minS f0 : ℚ} (h : minS ≤ f0) :
    (fitFuel minS f0 : ℚ) ≤ (f0 - minS) + 1 := by
  unfold fitFuel
  have h1 : 0 ≤ ⌈f0 - minS⌉ := Int.ceil_nonneg (by linarith)
  have h2 : (⌈f0 - minS⌉ : ℚ) < (f0 - minS) + 1 := Int.ceil_lt_add_one _
  have h3 : ((⌈f0 - minS⌉.toNat : ℕ) : ℚ) = ((⌈f0 - minS⌉ : ℤ) : ℚ) := by
    exact_mod_cast congrArg (fun z : ℤ => (z : ℚ)) (Int.toNat_of_nonneg h1)
  rw [h3]
  linarith

namespace PartV1

theorem fitGo_fuel (m : Measure) (words : List String) (maxW maxH : ℚ) :
    ∀ (n : ℕ) (f : ℚ), fitFuel 8 f ≤ n →
      fitGo m words maxW maxH n f = fitGo m words maxW maxH (fitFuel 8 f) f := by
  intro n
  induction n with
  | zero =>
    intro f h
    rw [Nat.le_zero] at h
    rw [h]
  | succ n ih =>
    intro f h
    by_cases hf : 8 < f
    · rw [fitFuel_succ hf] at h ⊢
      rw [fitGo, fitGo]
      rw [if_pos hf, if_pos hf]
      cases hcalc : calculateLines m words maxW f with
      | none =>
        simp only [hcalc]
        rw [ih (f - 1) (by omega)]
      | some r =>
        simp only [hcalc]
        by_cases hh : r.totalHeight ≤ maxH
        · rw [if_pos hh, if_pos hh]
        · rw [if_neg hh, if_neg hh, ih (f - 1) (by omega)]
    · rw [fitFuel_zero hf]
      rw [fitGo, fitGo]
      rw [if_neg hf]

theorem fitGo_some_char (m : Measure) (words : List String) (maxW maxH : ℚ) :
    ∀ (n : ℕ) (f0 f : ℚ) (r : CalcResult),
      fitGo m words maxW maxH n f0 = some (f, r) →
      ∃ k : ℕ, f = f0 - k ∧ 8 < f ∧ calculateLines m words maxW f = some r ∧
        r.totalHeight ≤ maxH ∧
        ∀ j : ℕ, j < k → ¬ sizeFits m words maxW maxH (f0 - j) := by
  intro n
  induction n with
  | zero =>
    intro f0 f r h
    rw [fitGo] at h
    cases h
  | succ n ih =>
    intro f0 f r h
    rw [fitGo] at h
    by_cases hf : 8 < f0
    · rw [if_pos hf] at h
      cases hcalc : calculateLines m words maxW f0 with
      | some r0 =>
        rw [hcalc] at h
        simp only [] at h
        by_cases hh : r0.totalHeight ≤ maxH
        · rw [if_pos hh] at h
          have h1 : f0 = f ∧ r0 = r := by
            have := h
            injection this with h2
            exact ⟨congrArg Prod.fst h2, congrArg Prod.snd h2⟩
          obtain ⟨rfl, rfl⟩ := h1
          exact ⟨0, by simp, hf, hcalc, hh, fun j hj => absurd hj (by omega)⟩
        · rw [if_neg hh] at h
          obtain ⟨k, hk, hfgt, hc, hht, hj⟩ := ih (f0 - 1) f r h
          refine ⟨k + 1, ?_, hfgt, hc, hht, ?_⟩
          · rw [hk]
            push_cast
            ring
          · intro j hj2
            cases j with
            | zero =>
              intro hfit
              obtain ⟨r2, hr2, hh2⟩ := hfit
              rw [show f0 - (0 : ℕ) = f0 by push_cast; ring, hcalc] at hr2
              injection hr2 with h3
              rw [h3] at hh
              exact hh hh2
            | succ j2 =>
              have h4 := hj j2 (by omega)
              intro hfit
              apply h4
              have h5 : f0 - ((j2 : ℕ) + 1 : ℕ) = f0 - 1 - (j2 : ℕ) := by
                push_cast
                ring
              rw [h5] at hfit
              exact hfit
      | none =>
        rw [hcalc] at h
        simp only [] at h
        obtain ⟨k, hk, hfgt, hc, hht, hj⟩ := ih (f0 - 1) f r h
        refine ⟨k + 1, ?_, hfgt, hc, hht, ?_⟩
        · rw [hk]
          push_cast
          ring
        · intro j hj2
          cases j with
          | zero =>
            intro hfit
            obtain ⟨r2, hr2, hh2⟩ := hfit
            rw [show f0 - (0 : ℕ) = f0 by push_cast; ring, hcalc] at hr2
            cases hr2
          | succ j2 =>
            have h4 := hj j2 (by omega)
            intro hfit
            apply h4
            have h5 : f0 - ((j2 : ℕ) + 1 : ℕ) = f0 - 1 - (j2 : ℕ) := by
              push_cast
              ring
            rw [h5] at hfit
            exact hfit
    · rw [if_neg hf] at h
      cases h

end PartV1

namespace PartV2

theorem bestFitGo_fuel (m : Measure) (words : List String) (maxW maxH : ℚ) :
    ∀ (n : ℕ) (f : ℚ) (st : StateC), fitFuel 6 f ≤ n →
      bestFitGo m words maxW maxH n f st =
        bestFitGo m words maxW maxH (fitFuel 6 f) f st := by
  intro n
  induction n with
  | zero =>
    intro f st h
    rw [Nat.le_zero] at h
    rw [h]
  | succ n ih =>
    intro f st h
    by_cases hf : 6 < f
    · rw [fitFuel_succ hf] at h ⊢
      rw [bestFitGo, bestFitGo]
      rw [if_pos hf, if_pos hf]
      cases hpass : pass (fun s => m s f) maxW words with
      | inl aborted =>
        simp only [hpass]
        rw [ih (f - 1) _ (by omega)]
      | inr done =>
        simp only [hpass]
        by_cases hh : (done.length : ℚ) * (f * (115 / 100)) ≤ maxH
        · rw [if_pos hh, if_pos hh]
        · rw [if_neg hh, if_neg hh, ih (f - 1) _ (by omega)]
    · rw [fitFuel_zero hf]
      rw [bestFitGo, bestFitGo]
      rw [if_neg hf]

end PartV2

/-! Section: Invariants of the App.tsx breaker -/

namespace AppTsx

theorem pushSplitGo_bounded {mw : String → ℚ} {W : ℚ} :
    ∀ {cs : List Char} {ls : List String} {charLine : String},
      (∀ c ∈ cs, mw (String.singleton c) ≤ W) →
      (∀ l ∈ ls, mw l ≤ W) →
      (charLine = "" ∨ mw charLine ≤ W) →
      (∀ l ∈ (pushSplitGo mw W cs ls charLine).1, mw l ≤ W) ∧
        ((pushSplitGo mw W cs ls charLine).2 = "" ∨
          mw (pushSplitGo mw W cs ls charLine).2 ≤ W) := by
  intro cs
  induction cs with
  | nil =>
    intro ls charLine _ hacc hcur
    exact ⟨hacc, hcur⟩
  | cons c cs2 ih =>
    intro ls charLine hch hacc hcur
    have hch2 : ∀ d ∈ cs2, mw (String.singleton d) ≤ W :=
      fun d hd => hch d (List.mem_cons_of_mem _ hd)
    have hchc : mw (String.singleton c) ≤ W := hch c (List.mem_cons_self _ _)
    rw [pushSplitGo]
    by_cases hb : mw (charLine.push c) > W
    · rw [if_pos hb]
      apply ih hch2
      · intro l hl
        by_cases he : charLine = ""
        · rw [if_pos he] at hl
          exact hacc l hl
        · rw [if_neg he] at hl
          rcases List.mem_append.mp hl with h1 | h2
          · exact hacc l h1
          · rw [List.mem_singleton] at h2
            subst h2
            rcases hcur with h3 | h3
            · exact absurd h3 he
            · exact h3
      · exact Or.inr hchc
    · rw [if_neg hb]
      exact ih hch2 hacc (Or.inr (not_lt.mp hb))

theorem pushSplitGo_rem_ne {mw : String → ℚ} {W : ℚ} :
    ∀ {cs : List Char} {ls : List String} {charLine : String},
      (cs ≠ [] ∨ charLine ≠ "") → (pushSplitGo mw W cs ls charLine).2 ≠ "" := by
  intro cs
  induction cs with
  | nil =>
    intro ls charLine h
    rcases h with h | h
    · exact absurd rfl h
    · exact h
  | cons c cs2 ih =>
    intro ls charLine _
    rw [pushSplitGo]
    by_cases hb : mw (charLine.push c) > W
    · rw [if_pos hb]
      exact ih (Or.inr (singleton_ne_empty c))
    · rw [if_neg hb]
      exact ih (Or.inr (push_ne_empty charLine c))

theorem pushSplitGo_good {mw : String → ℚ} {W : ℚ} :
    ∀ {cs : List Char} {ls : List String} {charLine : String},
      (∀ c ∈ cs, c.toUpper = c) →
      (∀ l ∈ ls, l ≠ "" ∧ ∀ c ∈ l.data, c.toUpper = c) →
      (∀ c ∈ charLine.data, c.toUpper = c) →
      (∀ l ∈ (pushSplitGo mw W cs ls charLine).1,
        l ≠ "" ∧ ∀ c ∈ l.data, c.toUpper = c) ∧
        (∀ c ∈ (pushSplitGo mw W cs ls charLine).2.data, c.toUpper = c) := by
  intro cs
  induction cs with
  | nil =>
    intro ls charLine _ hacc hcur
    exact ⟨hacc, hcur⟩
  | cons c cs2 ih =>
    intro ls charLine hch hacc hcur
    have hch2 : ∀ d ∈ cs2, d.toUpper = d := fun d hd => hch d (List.mem_cons_of_mem _ hd)
    have hchc : c.toUpper = c := hch c (List.mem_cons_self _ _)
    rw [pushSplitGo]
    by_cases hb : mw (charLine.push c) > W
    · rw [if_pos hb]
      apply ih hch2
      · intro l hl
        by_cases he : charLine = ""
        · rw [if_pos he] at hl
          exact hacc l hl
        · rw [if_neg he] at hl
          rcases List.mem_append.mp hl with h1 | h2
          · exact hacc l h1
          · rw [List.mem_singleton] at h2
            subst h2
            exact ⟨he, hcur⟩
      · intro d hd
        simp [String.singleton] at hd
        subst hd
        exact hchc
    · rw [if_neg hb]
      apply ih hch2 hacc
      intro d hd
      rw [String.data_push] at hd
      rcases List.mem_append.mp hd with h1 | h2
      · exact hcur d h1
      · rw [List.mem_singleton] at h2
        subst h2
        exact hchc

end AppTsx

namespace AppTsx

theorem wrapGo_cons (mw : String → ℚ) (W : ℚ) (w : String) (ws acc : List String)
    (cur : String) :
    wrapGo mw W (w :: ws) acc cur =
      if mw (if cur = "" then w else cur ++ " " ++ w) > W then
        if cur ≠ "" then
          if mw w > W then
            ((wrapGo mw W ws ((acc ++ [cur]) ++ (pushLineWithWordSplit mw W w).1)
                (pushLineWithWordSplit mw W w).2).1, true)
          else wrapGo mw W ws (acc ++ [cur]) w
        else
          ((wrapGo mw W ws (acc ++ (pushLineWithWordSplit mw W w).1)
              (pushLineWithWordSplit mw W w).2).1, true)
      else wrapGo mw W ws acc (if cur = "" then w else cur ++ " " ++ w) := rfl

theorem wrapGo_flagfalse_bounded {mw : String → ℚ} {W : ℚ} :
    ∀ {ws acc : List String} {cur : String},
      (wrapGo mw W ws acc cur).2 = false →
      (∀ l ∈ acc, mw l ≤ W) →
      (cur = "" ∨ mw cur ≤ W) →
      ∀ l ∈ (wrapGo mw W ws acc cur).1, mw l ≤ W := by
  intro ws
  induction ws with
  | nil =>
    intro acc cur _ hacc hcur l hl
    rw [wrapGo] at hl
    by_cases hc : cur = ""
    · rw [if_pos hc] at hl
      exact hacc l hl
    · rw [if_neg hc] at hl
      rcases List.mem_append.mp hl with h1 | h2
      · exact hacc l h1
      · rw [List.mem_singleton] at h2
        subst h2
        rcases hcur with h3 | h3
        · exact absurd h3 hc
        · exact h3
  | cons w ws2 ih =>
    intro acc cur hflag hacc hcur l hl
    rw [wrapGo_cons] at hflag hl
    by_cases hb : mw (if cur = "" then w else cur ++ " " ++ w) > W
    · rw [if_pos hb] at hflag hl
      by_cases hc : cur ≠ ""
      · rw [if_pos hc] at hflag hl
        by_cases hw : mw w > W
        · rw [if_pos hw] at hflag hl
          simp at hflag
        · rw [if_neg hw] at hflag hl
          refine ih hflag ?_ (Or.inr (not_lt.mp hw)) l hl
          intro x hx
          rcases List.mem_append.mp hx with h1 | h2
          · exact hacc x h1
          · rw [List.mem_singleton] at h2
            subst h2
            rcases hcur with h3 | h3
            · exact absurd h3 hc
            · exact h3
      · rw [if_neg hc] at hflag hl
        simp at hflag
    · rw [if_neg hb] at hflag hl
      exact ih hflag hacc (Or.inr (not_lt.mp hb)) l hl

theorem wrapGo_bounded_chars {mw : String → ℚ} {W : ℚ} :
    ∀ {ws acc : List String} {cur : String},
      (∀ w ∈ ws, ∀ c ∈ w.data, mw (String.singleton c) ≤ W) →
      (∀ l ∈ acc, mw l ≤ W) →
      (cur = "" ∨ mw cur ≤ W) →
      ∀ l ∈ (wrapGo mw W ws acc cur).1, mw l ≤ W := by
  intro ws
  induction ws with
  | nil =>
    intro acc cur _ hacc hcur l hl
    rw [wrapGo] at hl
    by_cases hc : cur = ""
    · rw [if_pos hc] at hl
      exact hacc l hl
    · rw [if_neg hc] at hl
      rcases List.mem_append.mp hl with h1 | h2
      · exact hacc l h1
      · rw [List.mem_singleton] at h2
        subst h2
        rcases hcur with h3 | h3
        · exact absurd h3 hc
        · exact h3
  | cons w ws2 ih =>
    intro acc cur hch hacc hcur l hl
    have hchw : ∀ c ∈ w.data, mw (String.singleton c) ≤ W :=
      hch w (List.mem_cons_self _ _)
    have hch2 : ∀ x ∈ ws2, ∀ c ∈ x.data, mw (String.singleton c) ≤ W :=
      fun x hx => hch x (List.mem_cons_of_mem _ hx)
    have hcur2 : ∀ x ∈ (if cur = "" then acc else acc ++ [cur]), mw x ≤ W := by
      intro x hx
      by_cases hc : cur = ""
      · rw [if_pos hc] at hx
        exact hacc x hx
      · rw [if_neg hc] at hx
        rcases List.mem_append.mp hx with h1 | h2
        · exact hacc x h1
        · rw [List.mem_singleton] at h2
          subst h2
          rcases hcur with h3 | h3
          · exact absurd h3 hc
          · exact h3
    have hsplit := @pushSplitGo_bounded mw W w.data ([] : List String) ""
      hchw (by intro x hx; simp at hx) (Or.inl rfl)
    rw [wrapGo_cons] at hl
    by_cases hb : mw (if cur = "" then w else cur ++ " " ++ w) > W
    · rw [if_pos hb] at hl
      by_cases hc : cur ≠ ""
      · rw [if_pos hc] at hl
        by_cases hw : mw w > W
        · rw [if_pos hw] at hl
          apply ih hch2 ?_ hsplit.2 l hl
          intro x hx
          rcases List.mem_append.mp hx with h1 | h2
          · rcases List.mem_append.mp h1 with h3 | h4
            · exact hacc x h3
            · rw [List.mem_singleton] at h4
              subst h4
              rcases hcur with h5 | h5
              · exact absurd h5 hc
              · exact h5
          · exact hsplit.1 x h2
        · rw [if_neg hw] at hl
          refine ih hch2 ?_ (Or.inr (not_lt.mp hw)) l hl
          intro x hx
          rcases List.mem_append.mp hx with h1 | h2
          · exact hacc x h1
          · rw [List.mem_singleton] at h2
            subst h2
            rcases hcur with h3 | h3
            · exact absurd h3 hc
            · exact h3
      · rw [if_neg hc] at hl
        apply ih hch2 ?_ hsplit.2 l hl
        intro x hx
        rcases List.mem_append.mp hx with h1 | h2
        · exact hacc x h1
        · exact hsplit.1 x h2
    · rw [if_neg hb] at hl
      exact ih hch2 hacc (Or.inr (not_lt.mp hb)) l hl

end AppTsx

namespace AppTsx

theorem wrapGo_ne_nil {mw : String → ℚ} {W : ℚ} :
    ∀ {ws acc : List String} {cur : String},
      (∀ w ∈ ws, w ≠ "") → (ws ≠ [] ∨ cur ≠ "") →
      (wrapGo mw W ws acc cur).1 ≠ [] := by
  intro ws
  induction ws with
  | nil =>
    intro acc cur _ h
    rcases h with h | h
    · exact absurd rfl h
    · rw [wrapGo, if_neg h]
      simp
  | cons w ws2 ih =>
    intro acc cur hws _
    have hwne : w ≠ "" := hws w (List.mem_cons_self _ _)
    have hws2 : ∀ x ∈ ws2, x ≠ "" := fun x hx => hws x (List.mem_cons_of_mem _ hx)
    have hdata : w.data ≠ [] := str_ne_empty_iff.mp hwne
    rw [wrapGo_cons]
    by_cases hb : mw (if cur = "" then w else cur ++ " " ++ w) > W
    · rw [if_pos hb]
      by_cases hc : cur ≠ ""
      · rw [if_pos hc]
        by_cases hw : mw w > W
        · rw [if_pos hw]
          exact ih hws2 (Or.inr (pushSplitGo_rem_ne (Or.inl hdata)))
        · rw [if_neg hw]
          exact ih hws2 (Or.inr hwne)
      · rw [if_neg hc]
        exact ih hws2 (Or.inr (pushSplitGo_rem_ne (Or.inl hdata)))
    · rw [if_neg hb]
      apply ih hws2
      right
      by_cases hc : cur = ""
      · rw [if_pos hc]
        exact hwne
      · rw [if_neg hc]
        rw [str_ne_empty_iff]
        simp

theorem wrapGo_good {mw : String → ℚ} {W : ℚ} :
    ∀ {ws acc : List String} {cur : String},
      (∀ w ∈ ws, ∀ c ∈ w.data, c.toUpper = c) →
      (∀ l ∈ acc, l ≠ "" ∧ ∀ c ∈ l.data, c.toUpper = c) →
      (∀ c ∈ cur.data, c.toUpper = c) →
      ∀ l ∈ (wrapGo mw W ws acc cur).1, l ≠ "" ∧ ∀ c ∈ l.data, c.toUpper = c := by
  intro ws
  induction ws with
  | nil =>
    intro acc cur _ hacc hcur l hl
    rw [wrapGo] at hl
    by_cases hc : cur = ""
    · rw [if_pos hc] at hl
      exact hacc l hl
    · rw [if_neg hc] at hl
      rcases List.mem_append.mp hl with h1 | h2
      · exact hacc l h1
      · rw [List.mem_singleton] at h2
        subst h2
        exact ⟨hc, hcur⟩
  | cons w ws2 ih =>
    intro acc cur hws hacc hcur l hl
    have hwu : ∀ c ∈ w.data, c.toUpper = c := hws w (List.mem_cons_self _ _)
    have hws2 : ∀ x ∈ ws2, ∀ c ∈ x.data, c.toUpper = c :=
      fun x hx => hws x (List.mem_cons_of_mem _ hx)
    have hsplit := @pushSplitGo_good mw W w.data ([] : List String) "" hwu
      (by intro x hx; simp at hx) (by intro c hc; simp [strEmpty_data] at hc)
    have haccp : ∀ x ∈ (acc ++ [cur]), cur ≠ "" →
        (x ≠ "" ∧ ∀ c ∈ x.data, c.toUpper = c) := by
      intro x hx hc
      rcases List.mem_append.mp hx with h1 | h2
      · exact hacc x h1
      · rw [List.mem_singleton] at h2
        subst h2
        exact ⟨hc, hcur⟩
    rw [wrapGo_cons] at hl
    by_cases hb : mw (if cur = "" then w else cur ++ " " ++ w) > W
    · rw [if_pos hb] at hl
      by_cases hc : cur ≠ ""
      · rw [if_pos hc] at hl
        by_cases hw : mw w > W
        · rw [if_pos hw] at hl
          apply ih hws2 ?_ hsplit.2 l hl
          intro x hx
          rcases List.mem_append.mp hx with h1 | h2
          · exact haccp x h1 hc
          · exact hsplit.1 x h2
        · rw [if_neg hw] at hl
          exact ih hws2 (fun x hx => haccp x hx hc) hwu l hl
      · rw [if_neg hc] at hl
        apply ih hws2 ?_ hsplit.2 l hl
        intro x hx
        rcases List.mem_append.mp hx with h1 | h2
        · exact hacc x h1
        · exact hsplit.1 x h2
    · rw [if_neg hb] at hl
      apply ih hws2 hacc ?_ l hl
      by_cases hc : cur = ""
      · rw [if_pos hc]
        exact hwu
      · rw [if_neg hc]
        intro c hcm
        rw [String.data_append, String.data_append] at hcm
        rcases List.mem_append.mp hcm with h1 | h2
        · rcases List.mem_append.mp h1 with h3 | h4
          · exact hcur c h3
          · have : c = ' ' := by simpa using h4
            subst this
            decide
        · exact hwu c h2

theorem wrapGo_join {mw : String → ℚ} {W : ℚ} :
    ∀ {ws acc : List String} {cur : String},
      (∀ w ∈ ws, w ≠ "") →
      (wrapGo mw W ws acc cur).2 = false →
      joinSp (wrapGo mw W ws acc cur).1 =
        joinSp (acc ++ (if cur = "" then [] else [cur]) ++ ws) := by
  intro ws
  induction ws with
  | nil =>
    intro acc cur _ _
    rw [wrapGo]
    by_cases hc : cur = "" <;> simp [hc]
  | cons w ws2 ih =>
    intro acc cur hne hflag
    have hwne : w ≠ "" := hne w (List.mem_cons_self _ _)
    have hne2 : ∀ x ∈ ws2, x ≠ "" := fun x hx => hne x (List.mem_cons_of_mem _ hx)
    rw [wrapGo_cons] at hflag ⊢
    by_cases hb : mw (if cur = "" then w else cur ++ " " ++ w) > W
    · rw [if_pos hb] at hflag ⊢
      by_cases hc : cur ≠ ""
      · rw [if_pos hc] at hflag ⊢
        by_cases hw : mw w > W
        · rw [if_pos hw] at hflag
          simp at hflag
        · rw [if_neg hw] at hflag ⊢
          rw [ih hne2 hflag]
          rw [if_neg hwne, if_neg hc]
          simp only [List.append_assoc, List.singleton_append]
          rfl
      · rw [if_neg hc] at hflag
        simp at hflag
    · rw [if_neg hb] at hflag ⊢
      by_cases hc : cur = ""
      · subst hc
        rw [if_pos rfl] at hflag ⊢
        rw [ih hne2 hflag]
        rw [if_neg hwne, if_pos rfl]
        simp
      · rw [if_neg hc] at hflag ⊢
        rw [ih hne2 hflag]
        rw [if_neg (append_space_ne_empty cur w), if_neg hc]
        simp only [List.append_assoc, List.singleton_append]
        rw [joinSp_merge]

end AppTsx

/-! Section: Concrete evaluation helpers -/

theorem normAAAA : normalizeText "AAAA" = "AAAA" := by decide

theorem wordsAAAA : jsWords "AAAA" = ["AAAA"] := by decide

theorem splitAAAA : jsSplitWS "AAAA" = ["AAAA"] := by decide

theorem normAB : normalizeText "AB" = "AB" := by decide

theorem wordsAB : jsWords "AB" = ["AB"] := by decide

theorem trimAAAAsp : jsTrim ("AAAA" ++ " ") = "AAAA" := by decide

theorem pushA0 : ("" : String).push 'A' = "A" := rfl

theorem pushA1 : ("A" : String).push 'A' = "AA" := rfl

theorem pushA2 : ("AA" : String).push 'A' = "AAA" := rfl

theorem singA : String.singleton 'A' = "A" := rfl

theorem lenA : ("A" : String).length = 1 := rfl

theorem lenAA : ("AA" : String).length = 2 := rfl

theorem lenAAA : ("AAA" : String).length = 3 := rfl

theorem lenAAAA : ("AAAA" : String).length = 4 := rfl

theorem lenAB : ("AB" : String).length = 2 := rfl

theorem neA : ("A" : String) ≠ "" := by decide

theorem neAA : ("AA" : String) ≠ "" := by decide

theorem neAAA : ("AAA" : String) ≠ "" := by decide

theorem neAAAA : ("AAAA" : String) ≠ "" := by decide

theorem neAB : ("AB" : String) ≠ "" := by decide

theorem ceil1310 : (⌈(13/10 : ℚ)⌉ : ℤ) = 2 := by
  rw [Int.ceil_eq_iff]
  constructor <;> norm_num

/-- Helper evaluation: the character splitting of App.tsx cuts the single
word AAAA into AA and AA at font size 10 with usable width 25. -/
theorem wrapGo_AAAA_eval :
    AppTsx.wrapGo (fun s => mexLen s 10) 25 ["AAAA"] [] "" = (["AA", "AA"], true) := by
  norm_num [AppTsx.wrapGo, AppTsx.pushLineWithWordSplit, AppTsx.pushSplitGo,
    mexLen, pushA0, pushA1, pushA2, singA, lenA, lenAA, lenAAA, lenAAAA,
    neA, neAA, neAAA, neAAAA]

/-- Claim C2, counterexample. First conjunct: the first part_000 variant,
whose breaker reports a too-wide word infeasible, never falls back to
character splitting even when the font-size floor is reached — the whole
shrink loop ends with no lines at all (contradicting the claim that at
the minimum fontSize it produces sub-lines of width at most W). Second
conjunct: the App.tsx breaker performs mid-word character splitting
immediately at its given font size (10), which is not a minimum of
anything — there is no size retry in that variant. -/
theorem charsplit_policy_counterexample :
    PartV1.findFontFit mexLen ["AAAA"] 1 100 10 = none
    ∧ AppTsx.wrapGo (fun s => mexLen s 10) 25 ["AAAA"] [] "" = (["AA", "AA"], true) := by
  constructor
  · norm_num [PartV1.findFontFit, fitFuel, PartV1.fitGo, PartV1.calculateLines,
      PartV1.calcGo, mexLen, lenAAAA, neAAAA]
  · exact wrapGo_AAAA_eval

/-- Claim C7, counterexample: with the box and text fixed, lowering the
fontScale from 1 to 0.93 makes the first part_000 variant choose a larger
fontSize (9.3 instead of 9), because the descending step-1 grids started
from incommensurable initial sizes do not contain one another. The
measurement is the monotone mexLen. -/
theorem fitted_size_not_monotone_in_scale :
    (PartV1.wrapText mexLen "AB" 0 0 (186/7) 100 (PartV1.scaledFontSize 182 1)).map
      PartV1.Paint.fontSize = some 9
    ∧ (PartV1.wrapText mexLen "AB" 0 0 (186/7) 100
        (PartV1.scaledFontSize 182 (93/100))).map PartV1.Paint.fontSize = some (93/10)
    ∧ (93 : ℚ)/100 < 1 ∧ (9 : ℚ) < 93/10 := by
  refine ⟨?_, ?_, by norm_num, by norm_num⟩
  · rw [PartV1.wrapText, PartV1.scaledFontSize, PartV1.baseFontSize]
    rw [normAB, wordsAB]
    norm_num [PartV1.findFontFit, fitFuel, PartV1.fitGo, PartV1.calculateLines,
      PartV1.calcGo, mexLen, lenAB, neAB]
  · rw [PartV1.wrapText, PartV1.scaledFontSize, PartV1.baseFontSize]
    rw [normAB, wordsAB]
    norm_num [PartV1.findFontFit, fitFuel, PartV1.fitGo, PartV1.calculateLines,
      PartV1.calcGo, mexLen, ceil1310, lenAB, neAB]

/-- Claim C4, counterexample: when even the smallest tried size cannot
fit the single word AAAA (usable width 7 at box width 10), the first
part_000 variant returns without painting anything at all — no forced
character splitting, no degraded layout — although the input is not
empty. -/
theorem sizeFloor_paints_nothing :
    PartV1.wrapText mexLen "AAAA" 0 0 10 100 10 = none
    ∧ normalizeText "AAAA" ≠ "" := by
  constructor
  · rw [PartV1.wrapText]
    rw [normAAAA, wordsAAAA]
    norm_num [PartV1.findFontFit, fitFuel, PartV1.fitGo, PartV1.calculateLines,
      PartV1.calcGo, mexLen, lenAAAA, neAAAA]
  · rw [normAAAA]
    exact neAAAA

/-- Claim C1, counterexample: in the second part_000 variant the first
word is accepted without any width check, so a single word wider than
the usable width (mexLen AAAA at size 8 measures 32, the usable width is
10 − 10·0.12·2 = 7.6) is returned as a line as-is, at a size where no
forced character splitting happens (the variant has none at all): the
painted line overflows the usable width at the chosen fontSize
(lineHeight 9.2 = 8·1.15 identifies the chosen size 8). -/
theorem findBestFit_first_word_overflow :
    (PartV2.wrapText mexLen "AAAA" 0 0 10 100 8).map PartV2.Paint.lines = some ["AAAA"]
    ∧ (PartV2.wrapText mexLen "AAAA" 0 0 10 100 8).map PartV2.Paint.lineHeight =
        some (46/5)
    ∧ mexLen "AAAA" 8 > 10 - 10 * (12/100) * 2 := by
  refine ⟨?_, ?_, by norm_num [mexLen, lenAAAA]⟩ <;>
  · rw [PartV2.wrapText]
    rw [normAAAA, splitAAAA]
    norm_num [PartV2.findBestFit, fitFuel, PartV2.bestFitGo, PartV2.pass,
      PartV2.passGo, mexLen, trimAAAAsp, lenAAAA, neAAAA]


theorem greedySpecGo_cons (mw : String → ℚ) (W : ℚ) (w : String)
    (ws acc : List String) (cur : String) :
    greedySpecGo mw W (w :: ws) acc cur =
      if mw (if cur = "" then w else cur ++ " " ++ w) ≤ W then
        greedySpecGo mw W ws acc (if cur = "" then w else cur ++ " " ++ w)
      else greedySpecGo mw W ws (acc ++ [cur]) w := rfl

namespace PartV1

theorem calcGo_none_of_wide {mw : String → ℚ} {W : ℚ}
    (hmono : ∀ pre w : String, pre ≠ "" → mw w ≤ mw ((pre ++ " ") ++ w)) :
    ∀ {ws acc : List String} {cur : String},
      (∃ w ∈ ws, mw w > W) → calcGo mw W ws acc cur = none := by
  intro ws
  induction ws with
  | nil =>
    intro acc cur h
    simp at h
  | cons w ws2 ih =>
    intro acc cur h
    rw [calcGo]
    by_cases hc : cur = ""
    · subst hc
      have e1 : (("" : String) ++ if ("" : String) ≠ "" then " " else "") ++ w = w := by
        apply String.ext
        simp [strEmpty_data]
      rw [e1]
      by_cases hw : mw w > W
      · rw [if_pos hw, if_pos hw]
      · have htail : ∃ x ∈ ws2, mw x > W := by
          obtain ⟨x, hx, hxw⟩ := h
          rcases List.mem_cons.mp hx with rfl | hx2
          · exact absurd hxw hw
          · exact ⟨x, hx2, hxw⟩
        rw [if_neg hw]
        exact ih htail
    · have e2 : (cur ++ if cur ≠ "" then " " else "") ++ w = (cur ++ " ") ++ w := by
        rw [if_pos hc]
      rw [e2]
      by_cases hw : mw w > W
      · rw [if_pos (lt_of_lt_of_le hw (hmono cur w hc)), if_pos hw]
      · have htail : ∃ x ∈ ws2, mw x > W := by
          obtain ⟨x, hx, hxw⟩ := h
          rcases List.mem_cons.mp hx with rfl | hx2
          · exact absurd hxw hw
          · exact ⟨x, hx2, hxw⟩
        by_cases hb : mw ((cur ++ " ") ++ w) > W
        · rw [if_pos hb, if_neg hw, if_pos hc]
          exact ih htail
        · rw [if_neg hb]
          exact ih htail

theorem calcGo_eq_greedy {mw : String → ℚ} {W : ℚ} :
    ∀ {ws acc : List String} {cur : String},
      (∀ w ∈ ws, ¬ mw w > W) →
      calcGo mw W ws acc cur = some (greedySpecGo mw W ws acc cur) := by
  intro ws
  induction ws with
  | nil =>
    intro acc cur _
    rw [calcGo, greedySpecGo]
  | cons w ws2 ih =>
    intro acc cur hfit
    have hwfit : ¬ mw w > W := hfit w (List.mem_cons_self _ _)
    have hfit2 : ∀ x ∈ ws2, ¬ mw x > W := fun x hx => hfit x (List.mem_cons_of_mem _ hx)
    rw [calcGo, greedySpecGo_cons]
    by_cases hc : cur = ""
    · subst hc
      have e1 : (("" : String) ++ if ("" : String) ≠ "" then " " else "") ++ w = w := by
        apply String.ext
        simp [strEmpty_data]
      rw [e1, if_pos rfl]
      rw [if_neg hwfit, if_pos (not_lt.mp hwfit)]
      exact ih hfit2
    · have e2 : (cur ++ if cur ≠ "" then " " else "") ++ w = (cur ++ " ") ++ w := by
        rw [if_pos hc]
      rw [e2, if_neg hc]
      by_cases hb : mw ((cur ++ " ") ++ w) > W
      · rw [if_pos hb, if_neg hwfit, if_pos hc, if_neg (not_le.mpr hb)]
        exact ih hfit2
      · rw [if_neg hb, if_pos (not_lt.mp hb)]
        exact ih hfit2

end PartV1

namespace AppTsx

theorem wrapGo_eq_greedy {mw : String → ℚ} {W : ℚ} :
    ∀ {ws acc : List String} {cur : String},
      (∀ w ∈ ws, ¬ mw w > W) →
      wrapGo mw W ws acc cur = (greedySpecGo mw W ws acc cur, false) := by
  intro ws
  induction ws with
  | nil =>
    intro acc cur _
    rw [wrapGo, greedySpecGo]
  | cons w ws2 ih =>
    intro acc cur hfit
    have hwfit : ¬ mw w > W := hfit w (List.mem_cons_self _ _)
    have hfit2 : ∀ x ∈ ws2, ¬ mw x > W := fun x hx => hfit x (List.mem_cons_of_mem _ hx)
    rw [wrapGo_cons, greedySpecGo_cons]
    by_cases hb : mw (if cur = "" then w else cur ++ " " ++ w) > W
    · rw [if_pos hb, if_neg (not_le.mpr hb)]
      by_cases hc : cur ≠ ""
      · rw [if_pos hc, if_neg hwfit]
        exact ih hfit2
      · exfalso
        apply hwfit
        have hc2 : cur = "" := not_not.mp hc
        rw [hc2, if_pos rfl] at hb
        exact hb
    · rw [if_neg hb, if_pos (not_lt.mp hb)]
      exact ih hfit2

end AppTsx


/-! Section: Claim theorems -/

/-- Claim C5: at a fixed fontSize at which every single word fits the
usable width W, both cited breakers (the App.tsx word loop and the first
part_000 variant's calculateLines loop) follow the spec's greedy rule
exactly: candidate = currentLine + space + word (or the word alone on an
empty line), accept on fit, otherwise close the line and start a new one
with the word alone. The App.tsx breaker moreover reports that no forced
character splitting happened. -/
theorem breaker_follows_greedy_rule (m : Measure) (f W : ℚ) (words : List String)
    (hfit : ∀ w ∈ words, m w f ≤ W) :
    AppTsx.wrapGo (fun s => m s f) W words [] "" =
      (greedySpec (fun s => m s f) W words, false)
    ∧ PartV1.calcGo (fun s => m s f) W words [] "" =
        some (greedySpec (fun s => m s f) W words) := by
  have hfit2 : ∀ w ∈ words, ¬ (fun s => m s f) w > W :=
    fun w hw => not_lt.mpr (hfit w hw)
  exact ⟨AppTsx.wrapGo_eq_greedy hfit2, PartV1.calcGo_eq_greedy hfit2⟩

/-- Witness for C5 at a concrete input where both words fit. -/
theorem breaker_follows_greedy_rule_witness :
    AppTsx.wrapGo (fun s => mexLen s 1) 100 ["AB", "CD"] [] "" =
      (greedySpec (fun s => mexLen s 1) 100 ["AB", "CD"], false) := by
  refine (breaker_follows_greedy_rule mexLen 1 100 ["AB", "CD"] ?_).1
  intro w hw
  rcases List.mem_cons.mp hw with rfl | hw2
  · norm_num [mexLen, lenAB]
  · rcases List.mem_cons.mp hw2 with rfl | hw3
    · norm_num [mexLen, (show ("CD" : String).length = 2 from rfl)]
    · simp at hw3

/-- Claim C8: the fitter is deterministic — invoking any of the three
variants twice with identical text, box, style and the same measurement
function produces identical results (in particular the same fontSize,
lines, lineHeight, blockHeight for the searching variant). -/
theorem fitter_idempotent (m : Measure) (raw1 raw2 : String)
    (cx1 cx2 cy1 cy2 bw1 bw2 bh1 bh2 f1 f2 : ℚ)
    (ht : raw1 = raw2) (hcx : cx1 = cx2) (hcy : cy1 = cy2)
    (hbw : bw1 = bw2) (hbh : bh1 = bh2) (hf : f1 = f2) :
    PartV1.wrapText m raw1 cx1 cy1 bw1 bh1 f1 =
      PartV1.wrapText m raw2 cx2 cy2 bw2 bh2 f2
    ∧ AppTsx.wrapText m raw1 cx1 cy1 bw1 bh1 f1 =
        AppTsx.wrapText m raw2 cx2 cy2 bw2 bh2 f2
    ∧ PartV2.wrapText m raw1 cx1 cy1 bw1 bh1 f1 =
        PartV2.wrapText m raw2 cx2 cy2 bw2 bh2 f2 := by
  subst ht hcx hcy hbw hbh hf
  exact ⟨rfl, rfl, rfl⟩

/-- Witness for C8 at a concrete repeated invocation. -/
theorem fitter_idempotent_witness :
    PartV1.wrapText mexLen "A" 0 0 1 1 1 = PartV1.wrapText mexLen "A" 0 0 1 1 1 :=
  (fitter_idempotent mexLen "A" "A" 0 0 0 0 1 1 1 1 1 1
    rfl rfl rfl rfl rfl rfl).1

/-- Claim C10: whenever the greedy wrap finishes without forced character
splitting, joining the produced lines with single spaces reproduces the
normalized input text (the whitespace-split words of
`rawText.trim().toUpperCase()` joined by single spaces): no word is
dropped, duplicated or reordered. Holds for the App.tsx breaker (whose
flag records that no splitting happened) and unconditionally for every
successful calculateLines run of the first part_000 variant. -/
theorem wrap_preserves_words (m : Measure) (f W : ℚ) (raw : String) :
    ((AppTsx.wrapGo (fun s => m s f) W (jsWords (normalizeText raw)) [] "").2 = false →
      joinSp (AppTsx.wrapGo (fun s => m s f) W (jsWords (normalizeText raw)) [] "").1 =
        joinSp (jsWords (normalizeText raw)))
    ∧ (∀ ls, PartV1.calcGo (fun s => m s f) W (jsWords (normalizeText raw)) [] ""
          = some ls →
        joinSp ls = joinSp (jsWords (normalizeText raw))) := by
  have hne : ∀ w ∈ jsWords (normalizeText raw), w ≠ "" :=
    fun w hw => mem_jsWords_ne_empty hw
  constructor
  · intro hflag
    have h := AppTsx.wrapGo_join hne hflag
    simpa using h
  · intro ls h
    have h2 := PartV1.calcGo_join hne h
    simpa using h2

/-- Witness for C10 at a concrete two-word input. -/
theorem wrap_preserves_words_witness :
    joinSp (AppTsx.wrapGo (fun s => mexLen s 1) 100
        (jsWords (normalizeText "AB CD")) [] "").1 =
      joinSp (jsWords (normalizeText "AB CD")) := by
  refine (wrap_preserves_words mexLen 1 100 "AB CD").1 ?_
  rw [(show jsWords (normalizeText "AB CD") = ["AB", "CD"] by decide)]
  norm_num [AppTsx.wrapGo, mexLen, lenAB, neAB, append_space_ne_empty,
    String.length_append, (show ("CD" : String).length = 2 from rfl),
    (show (" " : String).length = 1 from rfl)]

/-- Claim C2 (amended): a word wider than W makes the first part_000
variant's breaker report the size infeasible (null) — at every fontSize,
not only above a minimum — and that variant never falls back to
character splitting (see the counterexample for its behavior at the
floor). Character-level splitting exists only in App.tsx, where it
greedily appends characters until the next one would overflow; every
sub-line it produces (and the remainder) measures at most W provided
every single character fits W. The monotonicity hypothesis is the
width-monotonicity contract of the measurement under word prepending (section 4.1 of the spec). -/
theorem overwide_word_policy (m : Measure) (f W : ℚ) (words : List String)
    (hmono : ∀ pre w : String, pre ≠ "" → m w f ≤ m ((pre ++ " ") ++ w) f)
    (hwide : ∃ w ∈ words, m w f > W) :
    PartV1.calculateLines m words W f = none
    ∧ ∀ word : String, (∀ c ∈ word.data, m (String.singleton c) f ≤ W) →
      (∀ l ∈ (AppTsx.pushLineWithWordSplit (fun s => m s f) W word).1, m l f ≤ W)
      ∧ ((AppTsx.pushLineWithWordSplit (fun s => m s f) W word).2 = "" ∨
          m ((AppTsx.pushLineWithWordSplit (fun s => m s f) W word).2) f ≤ W) := by
  constructor
  · unfold PartV1.calculateLines
    rw [PartV1.calcGo_none_of_wide hmono hwide]
    rfl
  · intro word hch
    exact AppTsx.pushSplitGo_bounded hch (by intro x hx; simp at hx) (Or.inl rfl)

/-- Witness for C2 with the monotone measurement mexLen and an over-wide
word. -/
theorem overwide_word_policy_witness :
    PartV1.calculateLines mexLen ["AAAA"] 25 10 = none := by
  refine (overwide_word_policy mexLen 10 25 ["AAAA"] ?_ ?_).1
  · intro pre w _
    simp only [mexLen]
    have hl : (((pre ++ " ") ++ w).length : ℚ) =
        (pre.length : ℚ) + 1 + (w.length : ℚ) := by
      rw [String.length_append, String.length_append]
      push_cast
      norm_num [(show (" " : String).length = 1 from rfl)]
    rw [hl]
    have h0 : (0 : ℚ) ≤ (pre.length : ℚ) := by positivity
    linarith
  · exact ⟨"AAAA", by simp, by norm_num [mexLen, lenAAAA]⟩

/-- Claim C7 (amended): in App.tsx there is no fit search, and the
painted fontSize `floor(canvasHeight*0.065) * fontSizeScale` is a
monotonically non-decreasing function of the fontScale input. (For the
searching part_000 variant the original claim fails — see the
counterexample — because the step-1 grids of two different initial sizes
need not contain one another.) -/
theorem fontSize_monotone_in_scale_app (canvasHeight s1 s2 : ℚ)
    (h0 : 0 ≤ canvasHeight) (h12 : s1 ≤ s2) :
    AppTsx.currentFontSize canvasHeight s1 ≤ AppTsx.currentFontSize canvasHeight s2 := by
  unfold AppTsx.currentFontSize
  apply mul_le_mul_of_nonneg_left h12
  have h1 : (0 : ℚ) ≤ canvasHeight * (65 / 1000) := mul_nonneg h0 (by norm_num)
  exact_mod_cast Int.floor_nonneg.mpr h1

/-- Witness for C7 (amended): halving the scale never enlarges the App.tsx
font size. -/
theorem fontSize_monotone_in_scale_app_witness :
    AppTsx.currentFontSize 200 (1/2) ≤ AppTsx.currentFontSize 200 1 :=
  fontSize_monotone_in_scale_app 200 (1/2) 1 (by norm_num) (by norm_num)

theorem trimBBBBsp : jsTrim ("BBBB" ++ " ") = "BBBB" := by decide

theorem lenBBBB : ("BBBB" : String).length = 4 := rfl

/-- Claim C3, counterexample: the claim's conclusion — the search returns
the largest fontSize at which the wrapped block fits both the usable
width and the usable height — is false for the cited findBestFit
(part_000 second variant): its success test checks only the block
height, and the first word is accepted with no width check, so with the
single word BBBB (width 32 at size 8 under mexLen) and usable width 5 it
returns the very first size 8 (identified by lineHeight 8*1.15) although
the block does not fit the usable width at that size — nor at any other
size above the floor. -/
theorem findBestFit_not_width_fitting :
    (PartV2.findBestFit mexLen ["BBBB"] 5 100 8).lines = ["BBBB"]
    ∧ (PartV2.findBestFit mexLen ["BBBB"] 5 100 8).lineHeight = 8 * (115/100)
    ∧ mexLen "BBBB" 8 > 5 := by
  refine ⟨?_, ?_, by norm_num [mexLen, lenBBBB]⟩ <;>
  · norm_num [PartV2.findBestFit, fitFuel, PartV2.bestFitGo, PartV2.pass,
      PartV2.passGo, mexLen, trimBBBBsp, lenBBBB]

/-- Claim C3 (amended): the fit search of the first part_000 variant is a
linear descending scan with step 1 starting at `initialFontSize`: when
it returns a result, the chosen size lies on the grid
`initialFontSize - k`, it satisfies the fit condition (`sizeFits`: the
breaker accepts the width and the block height fits), and every larger
scanned size fails it — that scan returns the largest fitting candidate
without overshoot, the explicitly fueled loop with
`fitFuel 8 initialFontSize` iterations equals the search for every
larger budget (termination), and that iteration count is at most
`(initialFontSize - minSize) + 1` with `minSize = 8`. The second
variant's findBestFit is likewise a step-1 descending process — each
pass, aborted or not, moves to the next smaller size, and the budget
`fitFuel 6 initialFontSize`, at most `(initialFontSize - 6) + 1`, makes
the fueled loop equal to the unbounded retry loop — but its success
condition tests only the block height, so the size it returns need not
fit the usable width (see the counterexample: an over-wide first word is
accepted unchecked). -/
theorem fit_search_descending_scan (m : Measure) (words : List String)
    (maxW maxH f0 : ℚ) (hstart : 8 ≤ f0) :
    (∀ (f : ℚ) (r : PartV1.CalcResult),
      PartV1.findFontFit m words maxW maxH f0 = some (f, r) →
      ∃ k : ℕ, f = f0 - k ∧ 8 < f ∧ PartV1.sizeFits m words maxW maxH f ∧
        ∀ j : ℕ, j < k → ¬ PartV1.sizeFits m words maxW maxH (f0 - j))
    ∧ (∀ n : ℕ, fitFuel 8 f0 ≤ n →
        PartV1.fitGo m words maxW maxH n f0 = PartV1.findFontFit m words maxW maxH f0)
    ∧ (fitFuel 8 f0 : ℚ) ≤ (f0 - 8) + 1
    ∧ (∀ (n : ℕ) (st : PartV2.StateC), fitFuel 6 f0 ≤ n →
        PartV2.bestFitGo m words maxW maxH n f0 st =
          PartV2.bestFitGo m words maxW maxH (fitFuel 6 f0) f0 st)
    ∧ (fitFuel 6 f0 : ℚ) ≤ (f0 - 6) + 1 := by
  refine ⟨?_, ?_, fitFuel_le_bound hstart, ?_, fitFuel_le_bound (by linarith)⟩
  · intro f r h
    obtain ⟨k, hk, hfgt, hc, hht, hj⟩ :=
      PartV1.fitGo_some_char m words maxW maxH _ f0 f r h
    exact ⟨k, hk, hfgt, ⟨r, hc, hht⟩, hj⟩
  · intro n hn
    exact PartV1.fitGo_fuel m words maxW maxH n f0 hn
  · intro n st hn
    exact PartV2.bestFitGo_fuel m words maxW maxH n f0 st hn

/-- Witness for C3 (amended): a budget larger than the bound changes
nothing at a concrete input. -/
theorem fit_search_descending_scan_witness :
    PartV1.fitGo mexLen ["AB"] 70 100 5 10 = PartV1.findFontFit mexLen ["AB"] 70 100 10 := by
  refine (fit_search_descending_scan mexLen ["AB"] 70 100 10 (by norm_num)).2.1 5 ?_
  have h2 : fitFuel 8 10 = 2 := by
    unfold fitFuel
    norm_num
    decide
  rw [h2]
  norm_num

/-! Section: Shape lemmas for the wrapText entry points -/

namespace AppTsx

theorem appWrapText_none {m : Measure} {raw : String} {cx cy bw bh f : ℚ}
    (h : normalizeText raw = "") : wrapText m raw cx cy bw bh f = none := by
  simp only [wrapText]
  rw [if_pos h]

theorem wrapText_some_eq {m : Measure} {raw : String} {cx cy bw bh f : ℚ}
    (h : normalizeText raw ≠ "") :
    wrapText m raw cx cy bw bh f = some
      { lines := (wrapGo (fun s => m s f) ((bw - bw * (15/100) * 2) * (97/100))
            (jsWords (normalizeText raw)) [] "").1,
        lineHeight := f * (115/100),
        totalHeight := ((wrapGo (fun s => m s f) ((bw - bw * (15/100) * 2) * (97/100))
            (jsWords (normalizeText raw)) [] "").1.length : ℚ) * (f * (115/100)),
        startY := cy - (((wrapGo (fun s => m s f) ((bw - bw * (15/100) * 2) * (97/100))
            (jsWords (normalizeText raw)) [] "").1.length : ℚ) * (f * (115/100))) / 2
          + (f * (115/100)) / 2,
        centerX := cx } := by
  simp only [wrapText]
  rw [if_neg h]

end AppTsx

namespace PartV1

theorem v1WrapText_none {m : Measure} {raw : String} {cx cy bw bh f0 : ℚ}
    (h : normalizeText raw = "") : wrapText m raw cx cy bw bh f0 = none := by
  simp only [wrapText]
  rw [if_pos h]

theorem wrapText_cases {m : Measure} {raw : String} {cx cy bw bh f0 : ℚ}
    (h : normalizeText raw ≠ "") :
    wrapText m raw cx cy bw bh f0 =
      match findFontFit m (jsWords (normalizeText raw))
          (bw - bw * (15/100) * 2) (bh - bh * (15/100) * 2) f0 with
      | none => none
      | some (f, r) =>
        some { fontSize := f, lines := r.lines, lineHeight := r.lineHeight,
               blockHeight := r.totalHeight, startY := cy - r.totalHeight / 2,
               centerX := cx } := by
  simp only [wrapText]
  rw [if_neg h]

theorem calculateLines_shape {m : Measure} {words : List String} {maxW f : ℚ}
    {r : CalcResult} (h : calculateLines m words maxW f = some r) :
    r.totalHeight = (r.lines.length : ℚ) * r.lineHeight
    ∧ r.lineHeight = f * (115/100) := by
  unfold calculateLines at h
  cases hg : calcGo (fun s => m s f) maxW words [] "" with
  | none => rw [hg] at h; cases h
  | some ls =>
    rw [hg] at h
    simp only [Option.map_some] at h
    injection h with h2
    subst h2
    exact ⟨rfl, rfl⟩

end PartV1

namespace PartV2

theorem v2WrapText_none {m : Measure} {raw : String} {cx cy bw bh f : ℚ}
    (h : normalizeText raw = "") : wrapText m raw cx cy bw bh f = none := by
  simp only [wrapText]
  rw [if_pos (Or.inr h)]

end PartV2

/-- Claim C4 (amended): in the App.tsx variant every non-blank input
(input with at least one non-whitespace character) always produces a
painted layout with at least one line — over-wide words are handled by
the forced character splitting, so the call never bails out. The first
part_000 variant instead paints nothing when its size floor is exhausted
(see the claim's counterexample); it still returns normally rather than
crashing or hanging, as all the embedded functions are total. -/
theorem nonblank_input_painted_app (m : Measure) (raw : String) (cx cy bw bh f : ℚ)
    (hne : ∃ c ∈ raw.data, c.isWhitespace = false) :
    ∃ p, AppTsx.wrapText m raw cx cy bw bh f = some p ∧ p.lines ≠ [] := by
  have htext := normalizeText_ne_empty hne
  refine ⟨_, AppTsx.wrapText_some_eq htext, ?_⟩
  exact AppTsx.wrapGo_ne_nil (fun w hw => mem_jsWords_ne_empty hw)
    (Or.inl (jsWords_normalizeText_ne_nil hne))

/-- Witness for C4 (amended): the pathological single-word input paints. -/
theorem nonblank_input_painted_app_witness :
    (AppTsx.wrapText mexLen "AAAA" 0 0 10 100 10).isSome = true := by
  obtain ⟨p, hp, _⟩ := nonblank_input_painted_app mexLen "AAAA" 0 0 10 100 10 (by decide)
  rw [hp]
  rfl

/-- Claim C9: empty or whitespace-only input produces no lines and paints
nothing in all three variants, as a normal return and not an error; and
every line the App.tsx variant paints is non-empty (so leading or
trailing whitespace never produces an empty leading or trailing line)
and is uppercase (every character is a fixed point of toUpper). -/
theorem normalization_and_empty_input (m : Measure) (raw : String) (cx cy bw bh f : ℚ) :
    ((∀ c ∈ raw.data, c.isWhitespace = true) →
      AppTsx.wrapText m raw cx cy bw bh f = none
      ∧ PartV1.wrapText m raw cx cy bw bh f = none
      ∧ PartV2.wrapText m raw cx cy bw bh f = none)
    ∧ (∀ p, AppTsx.wrapText m raw cx cy bw bh f = some p →
        ∀ l ∈ p.lines, l ≠ "" ∧ ∀ c ∈ l.data, c.toUpper = c) := by
  constructor
  · intro hws
    have htext : normalizeText raw = "" := normalizeText_eq_empty hws
    exact ⟨AppTsx.appWrapText_none htext, PartV1.v1WrapText_none htext,
      PartV2.v2WrapText_none htext⟩
  · intro p hp
    by_cases htext : normalizeText raw = ""
    · rw [AppTsx.appWrapText_none htext] at hp
      cases hp
    · rw [AppTsx.wrapText_some_eq htext] at hp
      injection hp with hp2
      subst hp2
      intro l hl
      refine AppTsx.wrapGo_good ?_ ?_ ?_ l hl
      · intro w hw c hc
        exact normalizeText_upfix raw c (mem_jsWords_data_subset hw c hc)
      · intro x hx
        simp at hx
      · intro c hc
        simp [strEmpty_data] at hc

/-- Witness for C9: a whitespace-only input is a no-op in all variants. -/
theorem normalization_and_empty_input_witness :
    AppTsx.wrapText mexLen " " 0 0 1 1 1 = none := by
  exact ((normalization_and_empty_input mexLen " " 0 0 1 1 1).1 (by decide)).1

/-- Claim C6: layout geometry. In the App.tsx variant (baseline middle)
a successful call paints line i at
`(centerX, startY + i*lineHeight)` with
`startY = centerY - totalHeight/2 + lineHeight/2`,
`totalHeight = lines.length * lineHeight`, every line center-aligned at
the box's centerX, and the vertical midpoint of the painted block (half
a line above the first baseline-middle to half a line below the last)
equals centerY. In the first part_000 variant (baseline top)
`startY = centerY - blockHeight/2` with
`blockHeight = lines.length * lineHeight`, and the block [startY,
startY + blockHeight] is again vertically centered on centerY. -/
theorem layout_positions_centering (m : Measure) (raw : String) (cx cy bw bh f : ℚ) :
    (∀ p, AppTsx.wrapText m raw cx cy bw bh f = some p →
      p.startY = cy - p.totalHeight / 2 + p.lineHeight / 2
      ∧ p.totalHeight = (p.lines.length : ℚ) * p.lineHeight
      ∧ (∀ i : ℕ, i < p.lines.length →
          (AppTsx.linePositions p)[i]? = some (cx, p.startY + (i : ℚ) * p.lineHeight))
      ∧ (p.lines ≠ [] →
          ((p.startY - p.lineHeight / 2)
            + (p.startY + ((p.lines.length : ℚ) - 1) * p.lineHeight
                + p.lineHeight / 2)) / 2 = cy))
    ∧ (∀ p, PartV1.wrapText m raw cx cy bw bh f = some p →
      p.startY = cy - p.blockHeight / 2
      ∧ p.blockHeight = (p.lines.length : ℚ) * p.lineHeight
      ∧ (∀ i : ℕ, i < p.lines.length →
          (PartV1.linePositions p)[i]? = some (cx, p.startY + (i : ℚ) * p.lineHeight))
      ∧ (p.lines ≠ [] →
          (p.startY + (p.startY + p.blockHeight)) / 2 = cy)) := by
  constructor
  · intro p hp
    by_cases htext : normalizeText raw = ""
    · rw [AppTsx.appWrapText_none htext] at hp
      cases hp
    · rw [AppTsx.wrapText_some_eq htext] at hp
      injection hp with hp2
      subst hp2
      refine ⟨rfl, rfl, ?_, ?_⟩
      · intro i hi
        rw [AppTsx.linePositions, List.getElem?_map, List.getElem?_range hi]
        simp
      · intro _
        ring
  · intro p hp
    by_cases htext : normalizeText raw = ""
    · rw [PartV1.v1WrapText_none htext] at hp
      cases hp
    · rw [PartV1.wrapText_cases htext] at hp
      cases hfit : PartV1.findFontFit m (jsWords (normalizeText raw))
          (bw - bw * (15/100) * 2) (bh - bh * (15/100) * 2) f with
      | none =>
        rw [hfit] at hp
        cases hp
      | some fr =>
        obtain ⟨f1, r⟩ := fr
        rw [hfit] at hp
        injection hp with hp2
        subst hp2
        have hchar := PartV1.fitGo_some_char m (jsWords (normalizeText raw))
          (bw - bw * (15/100) * 2) (bh - bh * (15/100) * 2)
          (fitFuel 8 f) f f1 r hfit
        obtain ⟨_, _, _, hcalc, _, _⟩ := hchar
        have hshape := PartV1.calculateLines_shape hcalc
        refine ⟨rfl, hshape.1, ?_, ?_⟩
        · intro i hi
          rw [PartV1.linePositions, List.getElem?_map, List.getElem?_range hi]
          simp
        · intro _
          ring

/-- Witness for C6 at a concrete fitting input. -/
theorem layout_positions_centering_witness :
    (AppTsx.linePositions
      { lines := ["AB"], lineHeight := 23/2, totalHeight := 23/2,
        startY := (0 : ℚ) - (23/2) / 2 + (23/2) / 2, centerX := 0 })[0]? =
      some (0, ((0 : ℚ) - (23/2) / 2 + (23/2) / 2) + (0 : ℚ) * (23/2)) := by
  have hp : AppTsx.wrapText mexLen "AB" 0 0 (25000/679) 100 10 = some
      { lines := ["AB"], lineHeight := 23/2, totalHeight := 23/2,
        startY := (0 : ℚ) - (23/2) / 2 + (23/2) / 2, centerX := 0 } := by
    rw [AppTsx.wrapText_some_eq (by rw [normAB]; exact neAB)]
    rw [normAB, wordsAB]
    have hev : AppTsx.wrapGo (fun s => mexLen s 10)
        (((25000/679 : ℚ) - (25000/679) * (15/100) * 2) * (97/100)) ["AB"] [] ""
        = (["AB"], false) := by
      norm_num [AppTsx.wrapGo, mexLen, lenAB, neAB]
    rw [hev]
    norm_num
  have h := ((layout_positions_centering mexLen "AB" 0 0 (25000/679) 100 10).1 _ hp).2.2.1
    0 (by norm_num)
  simpa using h

/-- Claim C1 (amended): in the App.tsx variant, whenever forced character
splitting was not triggered, every painted line's measured width is at
most the usable width `(boxWidth - 2*0.15*boxWidth) * 0.97`; and even
when splitting is triggered (in particular when the first word alone is
wider than the usable width), the same containment holds provided every
single character fits the usable width. In the part_000 findBestFit
variant the original claim is false: a first word wider than the usable
width is accepted without any width check (see the counterexample). -/
theorem appWrap_width_containment (m : Measure) (raw : String) (cx cy bw bh f : ℚ) :
    ∀ p, AppTsx.wrapText m raw cx cy bw bh f = some p →
      ((AppTsx.wrapGo (fun s => m s f) ((bw - bw * (15/100) * 2) * (97/100))
          (jsWords (normalizeText raw)) [] "").2 = false →
        ∀ l ∈ p.lines, m l f ≤ (bw - bw * (15/100) * 2) * (97/100))
      ∧ ((∀ w ∈ jsWords (normalizeText raw), ∀ c ∈ w.data,
            m (String.singleton c) f ≤ (bw - bw * (15/100) * 2) * (97/100)) →
        ∀ l ∈ p.lines, m l f ≤ (bw - bw * (15/100) * 2) * (97/100)) := by
  intro p hp
  by_cases htext : normalizeText raw = ""
  · rw [AppTsx.appWrapText_none htext] at hp
    cases hp
  · rw [AppTsx.wrapText_some_eq htext] at hp
    injection hp with hp2
    subst hp2
    constructor
    · intro hflag
      exact AppTsx.wrapGo_flagfalse_bounded hflag
        (by intro x hx; simp at hx) (Or.inl rfl)
    · intro hch
      exact AppTsx.wrapGo_bounded_chars hch
        (by intro x hx; simp at hx) (Or.inl rfl)

/-- Witness for C1 (amended) at a concrete input where no splitting
happens: the single produced line fits the usable width. -/
theorem appWrap_width_containment_witness :
    mexLen "AB" 10 ≤ ((25000/679 : ℚ) - (25000/679) * (15/100) * 2) * (97/100) := by
  have htext : normalizeText "AB" ≠ "" := by
    rw [normAB]
    exact neAB
  have hev : AppTsx.wrapGo (fun s => mexLen s 10)
      (((25000/679 : ℚ) - (25000/679) * (15/100) * 2) * (97/100))
      (jsWords (normalizeText "AB")) [] "" = (["AB"], false) := by
    rw [normAB, wordsAB]
    norm_num [AppTsx.wrapGo, mexLen, lenAB, neAB]
  have h := (appWrap_width_containment mexLen "AB" 0 0 (25000/679) 100 10 _
      (AppTsx.wrapText_some_eq htext)).1 (by rw [hev])
  apply h "AB"
  show "AB" ∈ (AppTsx.wrapGo (fun s => mexLen s 10)
      (((25000/679 : ℚ) - (25000/679) * (15/100) * 2) * (97/100))
      (jsWords (normalizeText "AB")) [] "").1
  rw [hev]
  simp
